import Mathlib

/-
  Verification of the morphological-variable engine of the ELP_morpho_vars
  repository (build_morpholex_db.py and count_morphemes_from_elp_file.py).

  The Python code is shallowly embedded: lists of rows model the loaded CSV
  database, association lists (`List (String × _)`) model Python dicts with
  their insertion-order and key-uniqueness behaviour, rational numbers model
  the int/float frequencies, and `Except` models raised exceptions.
-/

namespace MorphoLex

/-! ## Notation model and morpheme extraction (get_morphemes)

`get_morphemes` in build_morpholex_db.py is `re.findall(r'[<>(][^><)]+?[<>)]', segm)`.
The character class `[^><)]` excludes exactly the closing class `[<>)]`, so the
lazy scan consumes an opening delimiter, a nonempty run of non-closing
characters, and the first closing delimiter; `findall` restarts after the match
and advances one character when no match starts at the current position. -/

/-- Characters matching the opening class `[<>(]` of the morpheme regex. -/
def isOpener (c : Char) : Bool := c == '<' || c == '>' || c == '('

/-- Characters matching the closing class `[<>)]` of the morpheme regex. -/
def isCloser (c : Char) : Bool := c == '<' || c == '>' || c == ')'

/-- After the opener `o`, consume middle characters (anything outside the
closing class) into `acc` until the first closing character; fail if the
string ends first or the middle would be empty (the `+?` needs one char). -/
def takeTok (o : Char) (acc : List Char) : List Char → Option (List Char × List Char)
  | [] => none
  | c :: cs =>
    if isCloser c then
      if acc.isEmpty then none
      else some (o :: (acc.reverse ++ [c]), cs)
    else takeTok o (c :: acc) cs

/-- The scanning loop of `re.findall` for the build-file morpheme pattern:
at each position, either a token starts here (opener followed by a nonempty
middle and a closer) and scanning resumes after it, or the scan advances one
character. -/
def findMorph : List Char → List (List Char)
  | [] => []
  | c :: rest =>
    if isOpener c then
      match h : takeTok c [] rest with
      | some p => p.1 :: findMorph p.2
      | none => findMorph rest
    else findMorph rest
termination_by l => l.length
decreasing_by
  · have key : ∀ (o : Char) (l acc tok rest : List Char),
        takeTok o acc l = some (tok, rest) → rest.length < l.length := by
      intro o l
      induction l with
      | nil => intro acc tok rest hk; simp [takeTok] at hk
      | cons a as ih =>
        intro acc tok rest hk
        simp only [takeTok] at hk
        split at hk
        · split at hk
          · exact absurd hk (by simp)
          · simp only [Option.some.injEq, Prod.mk.injEq] at hk
            obtain ⟨-, rfl⟩ := hk
            simp
        · exact Nat.lt_trans (ih (a :: acc) tok rest hk) (Nat.lt_succ_self _)
    exact Nat.lt_trans (key _ _ _ _ _ h) (Nat.lt_succ_self _)
  · exact Nat.lt_succ_self _
  · exact Nat.lt_succ_self _

/-- Embedding of `get_morphemes` (build_morpholex_db.py, lines 194-200): raises on the
`"NULL"` sentinel, otherwise returns the regex findall token list. -/
def get_morphemes (segm : String) : Except String (List String) :=
  if segm = "NULL" then .error "NULL segmentation!"
  else .ok ((findMorph segm.data).map String.mk)

/-- Embedding of `get_PRS_signature` (build_morpholex_db.py, lines 203-211):
`(int(count('<')/2), count('('), int(count('>')/2))`.  The counts are
non-negative, so Python's `int` truncation is floor division. -/
def get_PRS_signature (segm : String) : ℕ × ℕ × ℕ :=
  (segm.data.count '<' / 2, segm.data.count '(', segm.data.count '>' / 2)

/-! ## Substring containment (Python `in` on strings) -/

/-- Python list/str prefix test used to build the containment check. -/
def isPrefOf : List Char → List Char → Bool
  | [], _ => true
  | _ :: _, [] => false
  | a :: as, b :: bs => a == b && isPrefOf as bs

/-- Python `needle in hay` for strings: `needle` occurs contiguously in `hay`. -/
def inStr : List Char → List Char → Bool
  | n, [] => isPrefOf n []
  | n, h :: t => isPrefOf n (h :: t) || inStr n t

/-- Embedding of `m in s` in Python, on our `String` embedding. -/
def substr (m s : String) : Bool := inStr m.data s.data

/-! ## Data model: preprocessed corpus rows (build_morpholex_db.py)

A row of the ELP CSV after `preprocess_db`: the item id / word / POS columns,
the HAL frequency (an `int` in the code), the subtitle frequency (a `float`,
with the `'NULL'` sentinel already replaced by 0), and the segmentation
string.  Rationals stand for both numeric types. -/

structure Row where
  itemid : String
  word : String
  pos : String
  hal : ℚ
  sbtl : ℚ
  segm : String
  deriving DecidableEq

/-- Hapax subtitle-frequency threshold (build_morpholex_db.py line 43). -/
def HAPAX_SBTL_FREQ_THRESHOLD : ℚ := 2 / 100

/-- Hapax HAL-frequency threshold (build_morpholex_db.py line 44). -/
def HAPAX_HAL_FREQ_THRESHOLD : ℚ := 1

/-- Embedding of `total_morpheme_freq` (build_morpholex_db.py, lines 294-303): sum of the
HAL frequencies of the rows whose segmentation contains the morpheme. -/
def total_morpheme_freq (m : String) (db : List Row) : ℚ :=
  db.foldl (fun acc r => if substr m r.segm then acc + r.hal else acc) 0

/-- Python dict update `if k not in d: d[k] = 0` followed by `d[k] += f`:
add to an existing key in place, or append the new key at the end. -/
def dictInsertAdd (fam : List (String × ℚ)) (s : String) (f : ℚ) : List (String × ℚ) :=
  match fam with
  | [] => [(s, f)]
  | (k, v) :: t => if k = s then (k, v + f) :: t else (k, v) :: dictInsertAdd t s f

/-- Embedding of `get_family` (build_morpholex_db.py, lines 156-175): a dict from each
segmentation containing the morpheme to the summed HAL frequency of the rows
carrying that segmentation. -/
def get_family (m : String) (db : List Row) : List (String × ℚ) :=
  db.foldl (fun fam r => if substr m r.segm then dictInsertAdd fam r.segm r.hal else fam) []

/-- Embedding of `get_hapax_set` (build_morpholex_db.py, lines 178-191): rows whose HAL
frequency is at or below the HAL threshold, or else whose subtitle frequency
is at or below the subtitle threshold. -/
def get_hapax_set (db : List Row) : List Row :=
  db.filter (fun r =>
    decide (r.hal ≤ HAPAX_HAL_FREQ_THRESHOLD) || decide (r.sbtl ≤ HAPAX_SBTL_FREQ_THRESHOLD))

/-- Embedding of `get_percentage_family_more_frequent` (build_morpholex_db.py, lines
214-228). -/
def get_percentage_family_more_frequent (word_freq : ℚ) (family : List (String × ℚ)) : ℚ :=
  if family.length = 1 then 0
  else ((((family.map Prod.snd).filter (fun x => decide (word_freq < x))).length : ℚ) /
          ((family.length : ℚ) - 1)) * 100

/-- Embedding of `get_family_frequency_rank` (build_morpholex_db.py, lines 231-237). -/
def get_family_frequency_rank (word_freq : ℚ) (family : List (String × ℚ)) : ℕ :=
  ((family.map Prod.snd).filter (fun x => decide (word_freq < x))).length + 1

/-- The per-morpheme record built by `compute_morphological_variables`
(build_morpholex_db.py, lines 106-128). -/
structure MVar where
  hal_freq : ℚ
  family : List (String × ℚ)
  family_size : ℕ
  mlength : ℕ
  hal_p : ℚ
  hal_pstar : ℚ
  deriving DecidableEq

/-- Body of the inner loop of `compute_morphological_variables`
(build_morpholex_db.py, lines 112-125): the record computed for one morpheme
from the full database and the hapax set. -/
def mvarOf (m : String) (db hapax : List Row) : MVar :=
  let freq := total_morpheme_freq m db
  let family := get_family m db
  let hapax_freq := total_morpheme_freq m hapax
  ⟨freq, family, family.length, m.length - 2,
    if hapax_freq = 0 then 0 else hapax_freq / freq,
    if hapax_freq = 0 then 0 else hapax_freq / (hapax.length : ℚ)⟩

/-- Association-list lookup, the read side of a Python dict. -/
def lookupOpt : List (String × α) → String → Option α
  | [], _ => none
  | (k, v) :: t, s => if k = s then some v else lookupOpt t s

/-- The key list of a Python dict, in insertion order. -/
def keysOf (l : List (String × α)) : List String := l.map Prod.fst

/-- Embedding of `compute_morphological_variables` (build_morpholex_db.py, lines 92-128):
one pass over the rows, computing the record of each morpheme not already
counted; `get_morphemes` raises on a `"NULL"` segmentation. -/
def compute_morphological_variables (db hapax : List Row) :
    Except String (List (String × MVar)) :=
  db.foldlM (fun acc row => do
    let ms ← get_morphemes row.segm
    return ms.foldl (fun acc m =>
      if m ∈ keysOf acc then acc else acc ++ [(m, mvarOf m db hapax)]) acc) []

/-! ## Raw rows and preprocessing -/

/-- A raw CSV row before `preprocess_db`: the subtitle frequency may be the
`'NULL'` sentinel (modelled as `none`); the HAL column is assumed to parse as
an integer (the code re-raises otherwise). -/
structure RawRow where
  itemid : String
  word : String
  pos : String
  hal : ℚ
  sbtl : Option ℚ
  segm : String
  deriving DecidableEq

/-- Embedding of `preprocess_db` (build_morpholex_db.py, lines 269-291): keep only rows
with a segmentation, then coerce the numeric columns (`'NULL'` subtitle
frequency becomes 0). -/
def preprocess_db (db : List RawRow) : List Row :=
  (db.filter (fun r => decide (r.segm ≠ "NULL"))).map
    (fun r => ⟨r.itemid, r.word, r.pos, r.hal, r.sbtl.getD 0, r.segm⟩)

/-! ## Per-word composition (apply_morpho_vars_to_lex_db) -/

/-- A PRS signature used as a grouping key. -/
abbrev PRS : Type := ℕ × ℕ × ℕ

/-- The seven per-morpheme values appended for each morpheme of a word
(build_morpholex_db.py, lines 79-85): FFR, PFMF, family size, HAL frequency,
P, P-star, morpheme length. -/
structure MRec where
  ffr : ℕ
  pfmf : ℚ
  fam_size : ℕ
  freq : ℚ
  p : ℚ
  pstar : ℚ
  mlen : ℕ
  deriving DecidableEq

/-- One output record of `apply_morpho_vars_to_lex_db` (the `temp` list built
at build_morpholex_db.py, lines 71-86). -/
structure Entry where
  itemid : String
  word : String
  pos : String
  n_morphemes : ℕ
  prs_string : String
  segm : String
  mvars : List MRec
  deriving DecidableEq

/-- Python `res[prs].append(temp)` on the result dict. -/
def dictAppendP (res : List (PRS × List Entry)) (p : PRS) (e : Entry) :
    List (PRS × List Entry) :=
  match res with
  | [] => [(p, [e])]
  | (k, v) :: t => if k = p then (k, v ++ [e]) :: t else (k, v) :: dictAppendP t p e

/-- One iteration of the row loop of `apply_morpho_vars_to_lex_db`
(build_morpholex_db.py, lines 60-87).  A `"NULL"` segmentation is skipped;
missing dict keys raise `KeyError`; `freq` is the word's own family entry
looked up through its first morpheme. -/
def applyStep (mv : String → Option MVar) (res : List (PRS × List Entry)) (row : Row) :
    Except String (List (PRS × List Entry)) :=
  if row.segm = "NULL" then .ok res
  else
    let prs := get_PRS_signature row.segm
    let res1 := if prs ∈ (res.map Prod.fst) then res else res ++ [(prs, [])]
    match get_morphemes row.segm with
    | .error e => .error e
    | .ok morphemes =>
      let prs_string := String.intercalate ","
        [toString prs.1, toString prs.2.1, toString prs.2.2]
      match morphemes with
      | [] =>
        .ok (dictAppendP res1 prs
          ⟨row.itemid, row.word, row.pos, 0, prs_string, row.segm, []⟩)
      | m0 :: _ =>
        match mv m0 with
        | none => .error "KeyError"
        | some rec0 =>
          match lookupOpt rec0.family row.segm with
          | none => .error "KeyError"
          | some freq =>
            match morphemes.mapM (fun m =>
                match mv m with
                | none => Except.error "KeyError"
                | some recm => Except.ok
                    (⟨get_family_frequency_rank freq recm.family,
                      get_percentage_family_more_frequent freq recm.family,
                      recm.family_size, recm.hal_freq, recm.hal_p, recm.hal_pstar,
                      recm.mlength⟩ : MRec)) with
            | .error e => .error e
            | .ok mvars =>
              .ok (dictAppendP res1 prs
                ⟨row.itemid, row.word, row.pos, morphemes.length, prs_string,
                  row.segm, mvars⟩)

/-- The row loop of `apply_morpho_vars_to_lex_db`, threading the result dict;
an exception aborts the whole loop, as in Python. -/
def applyGo (mv : String → Option MVar) :
    List Row → List (PRS × List Entry) → Except String (List (PRS × List Entry))
  | [], res => .ok res
  | r :: t, res =>
    match applyStep mv res r with
    | .ok res' => applyGo mv t res'
    | .error e => .error e

/-- Embedding of `apply_morpho_vars_to_lex_db` (build_morpholex_db.py, lines 53-89). -/
def apply_morpho_vars_to_lex_db (db : List Row) (mv : String → Option MVar) :
    Except String (List (PRS × List Entry)) :=
  applyGo mv db []

/-! ## The count_morphemes_from_elp_file.py variants -/

namespace CM

/-- A row of the segmentation CSV used by count_morphemes_from_elp_file.py:
word, subtitle frequency (possibly the `'NULL'` sentinel), HAL frequency,
segmentation, POS (columns 0-4). -/
structure Row where
  word : String
  sbtl : Option ℚ
  hal : ℚ
  segm : String
  pos : String
  deriving DecidableEq

/-- Python dict assignment `d[k] = a`: overwrite an existing key in place or
append the new key at the end. -/
def dictSet (fam : List (String × α)) (s : String) (a : α) : List (String × α) :=
  match fam with
  | [] => [(s, a)]
  | (k, v) :: t => if k = s then (k, a) :: t else (k, v) :: dictSet t s a

/-- Embedding of `get_family` (count_morphemes_from_elp_file.py, lines 141-155): for each
row containing the morpheme, **assigns** (not adds) the pair
(subtitle-or-0, HAL) under the row's segmentation key, so a later row with
the same segmentation overwrites an earlier one. -/
def get_family (morpheme : String) (db : List Row) : List (String × ℚ × ℚ) :=
  db.foldl (fun fam row =>
    if substr morpheme row.segm then
      dictSet fam row.segm (row.sbtl.getD 0, row.hal)
    else fam) []

/-- Python `d.pop(s, None)`: remove the entry with key `s` if present. -/
def eraseKey : List (String × α) → String → List (String × α)
  | [], _ => []
  | (k, v) :: t, s => if k = s then t else (k, v) :: eraseKey t s

/-- Embedding of `get_relative_fam_freq` (count_morphemes_from_elp_file.py, lines
206-217).  The Python function mutates its `family` argument via
`family.pop(segm, None)`; the embedding returns the result together with the
post-state of `family`.  The `morpheme` and `db` parameters are unused in the
body, as in the source. -/
def get_relative_fam_freq (morpheme : String) (db : List Row) (segm : String)
    (word_freq : ℚ × ℚ) (family : List (String × ℚ × ℚ)) :
    (ℚ × ℚ) × List (String × ℚ × ℚ) :=
  if family.length = 1 then ((0, 0), family)
  else
    let fam := eraseKey family segm
    let more_sbtl := (fam.filter (fun p => decide (word_freq.1 < p.2.1))).length
    let more_hal := (fam.filter (fun p => decide (word_freq.2 < p.2.2))).length
    (((more_sbtl : ℚ) / (fam.length : ℚ) * 100, (more_hal : ℚ) / (fam.length : ℚ) * 100),
      fam)

end CM

/-! ## Canonical segmentations for the PRS/extraction relation

A word's canonical segmentation, per the data model, is a concatenation of
prefix tokens `<x<`, root tokens `(x)` and suffix tokens `>x>` whose contents
are nonempty and free of delimiter characters. -/

/-- One canonical morpheme token. -/
inductive Tok where
  | pref : List Char → Tok
  | root : List Char → Tok
  | suff : List Char → Tok
  deriving DecidableEq

/-- The characters of a token, delimiters included. -/
def tokChars : Tok → List Char
  | .pref x => '<' :: (x ++ ['<'])
  | .root x => '(' :: (x ++ [')'])
  | .suff x => '>' :: (x ++ ['>'])

/-- The content of a token, delimiters excluded. -/
def tokContent : Tok → List Char
  | .pref x => x
  | .root x => x
  | .suff x => x

/-- The four delimiter characters of the notation. -/
def isDelim (c : Char) : Bool := c == '<' || c == '>' || c == '(' || c == ')'

/-- A well-formed token: nonempty content without delimiter characters. -/
def GoodTok (t : Tok) : Prop :=
  tokContent t ≠ [] ∧ ∀ c ∈ tokContent t, isDelim c = false

instance : DecidablePred GoodTok := fun t =>
  inferInstanceAs (Decidable (_ ∧ _))

/-- A canonical segmentation: every token well formed. -/
def GoodToks (ts : List Tok) : Prop := ∀ t ∈ ts, GoodTok t

instance : DecidablePred GoodToks := fun ts =>
  inferInstanceAs (Decidable (∀ t ∈ ts, GoodTok t))

/-- The character string of a canonical segmentation. -/
def flat (ts : List Tok) : List Char := (ts.map tokChars).flatten

/-- Number of prefix tokens. -/
def nPref (ts : List Tok) : ℕ :=
  ts.countP (fun t => match t with | .pref _ => true | _ => false)

/-- Number of root tokens. -/
def nRoot (ts : List Tok) : ℕ :=
  ts.countP (fun t => match t with | .root _ => true | _ => false)

/-- Number of suffix tokens. -/
def nSuff (ts : List Tok) : ℕ :=
  ts.countP (fun t => match t with | .suff _ => true | _ => false)

/-- The rows of the database that contain morpheme `m` and carry exactly the
segmentation `s`; used to state closed forms of the family aggregation. -/
def matchRows (m s : String) (db : List Row) : List Row :=
  db.filter (fun r => substr m r.segm && decide (r.segm = s))

end MorphoLex

namespace MorphoLex

/-! # Helper lemmas -/

theorem lookupOpt_dictInsertAdd (fam : List (String × ℚ)) (s s' : String) (f : ℚ) :
    lookupOpt (dictInsertAdd fam s f) s' =
      if s' = s then some ((lookupOpt fam s).getD 0 + f) else lookupOpt fam s' := by
  induction fam with
  | nil =>
    by_cases h : s' = s
    · subst h; simp [dictInsertAdd, lookupOpt]
    · have h' : s ≠ s' := fun hh => h hh.symm
      simp [dictInsertAdd, lookupOpt, h, h']
  | cons p t ih =>
    obtain ⟨k, v⟩ := p
    by_cases hk : k = s
    · subst hk
      by_cases hs : s' = k
      · subst hs; simp [dictInsertAdd, lookupOpt]
      · have hs' : k ≠ s' := fun hh => hs hh.symm
        simp [dictInsertAdd, lookupOpt, hs, hs']
    · by_cases hs : s' = k
      · subst hs
        have hk' : s ≠ s' := fun hh => hk hh.symm
        simp [dictInsertAdd, lookupOpt, hk, hk']
      · have hs' : k ≠ s' := fun hh => hs hh.symm
        simp [dictInsertAdd, lookupOpt, hk, hs, hs', ih]

theorem keysOf_dictInsertAdd (fam : List (String × ℚ)) (s : String) (f : ℚ) :
    keysOf (dictInsertAdd fam s f) =
      if s ∈ keysOf fam then keysOf fam else keysOf fam ++ [s] := by
  induction fam with
  | nil => simp [dictInsertAdd, keysOf]
  | cons p t ih =>
    obtain ⟨k, v⟩ := p
    by_cases hk : k = s
    · subst hk; simp [dictInsertAdd, keysOf]
    · have hne : s ≠ k := fun h => hk h.symm
      simp only [dictInsertAdd, if_neg hk, keysOf, List.map_cons] at ih ⊢
      by_cases hmem : s ∈ List.map Prod.fst t
      · simp [ih, hmem, hne]
      · simp [ih, hmem, hne]

theorem nodup_keysOf_dictInsertAdd (fam : List (String × ℚ)) (s : String) (f : ℚ)
    (h : (keysOf fam).Nodup) : (keysOf (dictInsertAdd fam s f)).Nodup := by
  rw [keysOf_dictInsertAdd]
  by_cases hmem : s ∈ keysOf fam
  · simpa [hmem] using h
  · simpa [hmem, List.nodup_append] using h

theorem lookupOpt_eq_none_iff (l : List (String × α)) (s : String) :
    lookupOpt l s = none ↔ s ∉ keysOf l := by
  induction l with
  | nil => simp [lookupOpt, keysOf]
  | cons p t ih =>
    obtain ⟨k, v⟩ := p
    by_cases hk : k = s
    · subst hk; simp [lookupOpt, keysOf]
    · have hne : s ≠ k := fun h => hk h.symm
      simp only [lookupOpt, if_neg hk, keysOf, List.map_cons, List.mem_cons]
      rw [ih]
      simp [keysOf, hne]

theorem totalFreq_eq_sum (m : String) (db : List Row) :
    total_morpheme_freq m db =
      ((db.filter (fun r => substr m r.segm)).map Row.hal).sum := by
  have aux : ∀ (l : List Row) (a : ℚ),
      l.foldl (fun acc r => if substr m r.segm then acc + r.hal else acc) a =
        a + ((l.filter (fun r => substr m r.segm)).map Row.hal).sum := by
    intro l
    induction l with
    | nil => intro a; simp
    | cons r t ih =>
      intro a
      by_cases h : substr m r.segm
      · simp only [List.foldl_cons, h, if_true, List.filter_cons, List.map_cons,
          List.sum_cons, ih]
        ring
      · simp only [List.foldl_cons, h, if_false, List.filter_cons, ih]
        simp [h]
  simpa using aux db 0

theorem matchRows_cons (m s : String) (r : Row) (t : List Row) :
    matchRows m s (r :: t) =
      if substr m r.segm && decide (r.segm = s) then r :: matchRows m s t
      else matchRows m s t := by
  simp [matchRows, List.filter_cons]

theorem lookup_family_foldl (m s : String) (db : List Row) :
    ∀ fam : List (String × ℚ),
      lookupOpt
        (db.foldl (fun fam r =>
          if substr m r.segm then dictInsertAdd fam r.segm r.hal else fam) fam) s =
      if matchRows m s db = [] then lookupOpt fam s
      else some ((lookupOpt fam s).getD 0 + ((matchRows m s db).map Row.hal).sum) := by
  induction db with
  | nil => intro fam; simp [matchRows]
  | cons r t ih =>
    intro fam
    simp only [List.foldl_cons]
    by_cases hsub : substr m r.segm
    · rw [if_pos hsub]
      by_cases hseg : r.segm = s
      · subst hseg
        have hmr : matchRows m r.segm (r :: t) = r :: matchRows m r.segm t := by
          simp [matchRows_cons, hsub]
        have hL : lookupOpt (dictInsertAdd fam r.segm r.hal) r.segm =
            some ((lookupOpt fam r.segm).getD 0 + r.hal) := by
          rw [lookupOpt_dictInsertAdd, if_pos rfl]
        rw [ih, hL, hmr]
        by_cases hemp : matchRows m r.segm t = []
        · simp [hemp]
        · simp [hemp, add_assoc]
      · have hmr : matchRows m s (r :: t) = matchRows m s t := by
          simp [matchRows_cons, hsub, hseg]
        have hL : lookupOpt (dictInsertAdd fam r.segm r.hal) s = lookupOpt fam s := by
          rw [lookupOpt_dictInsertAdd, if_neg (fun h => hseg h.symm)]
        rw [ih, hL, hmr]
    · rw [if_neg hsub]
      have hmr : matchRows m s (r :: t) = matchRows m s t := by
        simp [matchRows_cons, hsub]
      rw [ih, hmr]

theorem lookup_get_family (m s : String) (db : List Row) :
    lookupOpt (get_family m db) s =
      if matchRows m s db = [] then none
      else some (((matchRows m s db).map Row.hal).sum) := by
  have h := lookup_family_foldl m s db []
  simp only [get_family] at *
  rw [h]
  simp [lookupOpt]

theorem keysOf_get_family_nodup (m : String) (db : List Row) :
    (keysOf (get_family m db)).Nodup := by
  have aux : ∀ fam : List (String × ℚ), (keysOf fam).Nodup →
      (keysOf (db.foldl (fun fam r =>
        if substr m r.segm then dictInsertAdd fam r.segm r.hal else fam) fam)).Nodup := by
    induction db with
    | nil => intro fam h; exact h
    | cons r t ih =>
      intro fam h
      by_cases hsub : substr m r.segm
      · simp only [List.foldl_cons, hsub, if_true]
        exact ih _ (nodup_keysOf_dictInsertAdd fam r.segm r.hal h)
      · simp only [List.foldl_cons, hsub, if_false]
        exact ih _ h
  exact aux [] (by simp [keysOf])

theorem mem_keysOf_get_family (m s : String) (db : List Row) :
    s ∈ keysOf (get_family m db) ↔ matchRows m s db ≠ [] := by
  rw [← not_iff_not, not_not, ← lookupOpt_eq_none_iff, lookup_get_family]
  by_cases h : matchRows m s db = [] <;> simp [h]

theorem sum_le_sum_sublist {l₁ l₂ : List ℚ} (h : l₁.Sublist l₂)
    (hnn : ∀ x ∈ l₂, 0 ≤ x) : l₁.sum ≤ l₂.sum := by
  induction h with
  | slnil => exact le_refl 0
  | cons a hs ih =>
    rename_i u v
    have h0 : 0 ≤ a := hnn a (List.mem_cons_self a v)
    have := ih (fun x hx => hnn x (List.mem_cons_of_mem a hx))
    simpa using le_add_of_nonneg_of_le h0 this
  | cons₂ a hs ih =>
    rename_i u v
    have := ih (fun x hx => hnn x (List.mem_cons_of_mem a hx))
    simpa using this

theorem hapax_sublist (db : List Row) : (get_hapax_set db).Sublist db :=
  List.filter_sublist db

theorem totalFreq_nonneg (m : String) (db : List Row)
    (hnn : ∀ r ∈ db, 0 ≤ r.hal) : 0 ≤ total_morpheme_freq m db := by
  rw [totalFreq_eq_sum]
  apply List.sum_nonneg
  intro x hx
  obtain ⟨r, hr, rfl⟩ := List.mem_map.mp hx
  exact hnn r (List.mem_of_mem_filter hr)

theorem totalFreq_hapax_le (m : String) (db : List Row)
    (hnn : ∀ r ∈ db, 0 ≤ r.hal) :
    total_morpheme_freq m (get_hapax_set db) ≤ total_morpheme_freq m db := by
  rw [totalFreq_eq_sum, totalFreq_eq_sum]
  apply sum_le_sum_sublist
  · exact ((hapax_sublist db).filter _).map Row.hal
  · intro x hx
    obtain ⟨r, hr, rfl⟩ := List.mem_map.mp hx
    exact hnn r (List.mem_of_mem_filter hr)

/-! ### Scanning canonical segmentations -/

theorem isCloser_false_of_not_delim (c : Char) (h : isDelim c = false) :
    isCloser c = false := by
  simp only [isDelim, Bool.or_eq_false_iff, beq_eq_false_iff_ne, ne_eq] at h
  simp only [isCloser, Bool.or_eq_false_iff, beq_eq_false_iff_ne, ne_eq]
  exact ⟨h.1.1, h.2⟩

theorem takeTok_spec (o cl : Char) (hcl : isCloser cl = true) (rest : List Char) :
    ∀ (x : List Char), (∀ c ∈ x, isCloser c = false) →
      ∀ acc : List Char, takeTok o acc (x ++ cl :: rest) =
        if acc.reverse ++ x = [] then none
        else some (o :: ((acc.reverse ++ x) ++ [cl]), rest) := by
  intro x
  induction x with
  | nil =>
    intro _ acc
    rcases acc with - | ⟨a, as⟩
    · simp [takeTok, hcl]
    · simp [takeTok, hcl]
  | cons a x' ih =>
    intro hx acc
    have ha : isCloser a = false := hx a (by simp)
    have hx' : ∀ c ∈ x', isCloser c = false := fun c hc => hx c (by simp [hc])
    simp only [List.cons_append, takeTok, ha, Bool.false_eq_true, if_false,
      List.append_eq]
    rw [ih hx' (a :: acc)]
    simp [List.append_assoc]

theorem findMorph_cons (c : Char) (rest : List Char) (hc : isOpener c = true)
    (tok rest' : List Char) (h : takeTok c [] rest = some (tok, rest')) :
    findMorph (c :: rest) = tok :: findMorph rest' := by
  rw [findMorph]
  rw [if_pos hc]
  split
  · rename_i p heq
    rw [h] at heq
    cases heq
    rfl
  · rename_i heq
    rw [h] at heq
    cases heq

theorem findMorph_tok_append (o cl : Char) (ho : isOpener o = true)
    (hcl : isCloser cl = true) (x rest : List Char) (hne : x ≠ [])
    (hx : ∀ c ∈ x, isCloser c = false) :
    findMorph ((o :: (x ++ [cl])) ++ rest) = (o :: (x ++ [cl])) :: findMorph rest := by
  have harr : (o :: (x ++ [cl])) ++ rest = o :: (x ++ cl :: rest) := by simp
  rw [harr]
  have hs : takeTok o [] (x ++ cl :: rest) = some (o :: (x ++ [cl]), rest) := by
    have h := takeTok_spec o cl hcl rest x hx []
    simpa [hne] using h
  exact findMorph_cons o _ ho _ _ hs

theorem findMorph_flat (ts : List Tok) (h : GoodToks ts) :
    findMorph (flat ts) = ts.map tokChars := by
  induction ts with
  | nil => simp [flat, findMorph]
  | cons t ts' ih =>
    obtain ⟨hne, hdel⟩ := h t (by simp)
    have h' : GoodToks ts' := fun u hu => h u (by simp [hu])
    have hx : ∀ c ∈ tokContent t, isCloser c = false :=
      fun c hc => isCloser_false_of_not_delim c (hdel c hc)
    have hfc : flat (t :: ts') = tokChars t ++ flat ts' := by simp [flat]
    rw [hfc, List.map_cons]
    cases t with
    | pref x =>
      rw [show tokChars (Tok.pref x) = '<' :: (x ++ ['<']) from rfl] at *
      rw [findMorph_tok_append '<' '<' (by decide) (by decide) x _ hne hx, ih h']
    | root x =>
      rw [show tokChars (Tok.root x) = '(' :: (x ++ [')']) from rfl] at *
      rw [findMorph_tok_append '(' ')' (by decide) (by decide) x _ hne hx, ih h']
    | suff x =>
      rw [show tokChars (Tok.suff x) = '>' :: (x ++ ['>']) from rfl] at *
      rw [findMorph_tok_append '>' '>' (by decide) (by decide) x _ hne hx, ih h']

theorem count_content_zero (x : List Char) (hdel : ∀ c ∈ x, isDelim c = false)
    (c : Char) (hc : isDelim c = true) : x.count c = 0 := by
  rw [List.count_eq_zero]
  intro hmem
  have h := hdel c hmem
  rw [hc] at h
  exact Bool.noConfusion h

theorem count_flat (ts : List Tok) (h : GoodToks ts) :
    (flat ts).count '<' = 2 * nPref ts ∧ (flat ts).count '(' = nRoot ts ∧
      (flat ts).count '>' = 2 * nSuff ts := by
  induction ts with
  | nil => simp [flat, nPref, nRoot, nSuff]
  | cons t ts' ih =>
    obtain ⟨hne, hdel⟩ := h t (by simp)
    have h' : GoodToks ts' := fun u hu => h u (by simp [hu])
    obtain ⟨ih1, ih2, ih3⟩ := ih h'
    have hfc : flat (t :: ts') = tokChars t ++ flat ts' := by simp [flat]
    rw [hfc]
    cases t with
    | pref x =>
      have c1 : x.count '<' = 0 := count_content_zero x hdel '<' (by decide)
      have c2 : x.count '(' = 0 := count_content_zero x hdel '(' (by decide)
      have c3 : x.count '>' = 0 := count_content_zero x hdel '>' (by decide)
      refine ⟨?_, ?_, ?_⟩ <;>
        simp [tokChars, List.count_append, List.count_cons, c1, c2, c3,
          ih1, ih2, ih3, nPref, nRoot, nSuff, List.countP_cons] <;> omega
    | root x =>
      have c1 : x.count '<' = 0 := count_content_zero x hdel '<' (by decide)
      have c2 : x.count '(' = 0 := count_content_zero x hdel '(' (by decide)
      have c3 : x.count '>' = 0 := count_content_zero x hdel '>' (by decide)
      refine ⟨?_, ?_, ?_⟩ <;>
        simp [tokChars, List.count_append, List.count_cons, c1, c2, c3,
          ih1, ih2, ih3, nPref, nRoot, nSuff, List.countP_cons] <;> omega
    | suff x =>
      have c1 : x.count '<' = 0 := count_content_zero x hdel '<' (by decide)
      have c2 : x.count '(' = 0 := count_content_zero x hdel '(' (by decide)
      have c3 : x.count '>' = 0 := count_content_zero x hdel '>' (by decide)
      refine ⟨?_, ?_, ?_⟩ <;>
        simp [tokChars, List.count_append, List.count_cons, c1, c2, c3,
          ih1, ih2, ih3, nPref, nRoot, nSuff, List.countP_cons] <;> omega

theorem length_eq_counts (ts : List Tok) :
    ts.length = nPref ts + nRoot ts + nSuff ts := by
  induction ts with
  | nil => simp [nPref, nRoot, nSuff]
  | cons t ts' ih =>
    cases t <;>
      simp only [List.length_cons, nPref, nRoot, nSuff, List.countP_cons] at * <;>
      simp <;> omega

theorem flat_ne_null (ts : List Tok) : String.mk (flat ts) ≠ "NULL" := by
  cases ts with
  | nil => decide
  | cons t ts' =>
    intro h
    have hd : flat (t :: ts') = "NULL".data := congrArg String.data h
    have hfc : flat (t :: ts') = tokChars t ++ flat ts' := by simp [flat]
    rw [hfc] at hd
    cases t <;> simp [tokChars] at hd

theorem count_gt_no_key (t : List (String × ℚ)) (k : String) (wf : ℚ)
    (hk : k ∉ keysOf t) :
    ((t.map Prod.snd).filter (fun x => decide (wf < x))).length =
      (t.filter (fun p => decide (p.1 ≠ k) && decide (wf < p.2))).length := by
  induction t with
  | nil => rfl
  | cons p t' ih =>
    simp only [keysOf, List.map_cons, List.mem_cons, not_or] at hk
    obtain ⟨hk1, hk2⟩ := hk
    have hp1 : p.1 ≠ k := fun h => hk1 h.symm
    have ih' := ih (by simpa [keysOf] using hk2)
    by_cases hlt : wf < p.2
    · simp [List.filter_cons, hp1, hlt, ih']
    · simp [List.filter_cons, hp1, hlt, ih']

theorem count_gt_excl_self (fam : List (String × ℚ)) (k : String) (wf : ℚ)
    (hnd : (keysOf fam).Nodup) (hmem : (k, wf) ∈ fam) :
    ((fam.map Prod.snd).filter (fun x => decide (wf < x))).length =
      (fam.filter (fun p => decide (p.1 ≠ k) && decide (wf < p.2))).length := by
  induction fam with
  | nil => cases hmem
  | cons p t ih =>
    simp only [keysOf, List.map_cons, List.nodup_cons] at hnd
    obtain ⟨hknot, hndt⟩ := hnd
    rcases List.mem_cons.mp hmem with heq | hmemt
    · rw [← heq] at hknot ⊢
      have hrest := count_gt_no_key t k wf (by simpa [keysOf] using hknot)
      simp [List.filter_cons, lt_irrefl, hrest]
    · have hkt : k ∈ List.map Prod.fst t :=
        List.mem_map.mpr ⟨(k, wf), hmemt, rfl⟩
      have hp1 : p.1 ≠ k := fun h => hknot (h ▸ hkt)
      have ih' := ih (by simpa [keysOf] using hndt) hmemt
      by_cases hlt : wf < p.2
      · simp [List.filter_cons, hp1, hlt, ih']
      · simp [List.filter_cons, hp1, hlt, ih']

theorem keysOf_eraseKey {α : Type} (fam : List (String × α)) (s : String) :
    keysOf (CM.eraseKey fam s) = (keysOf fam).erase s := by
  induction fam with
  | nil => simp [CM.eraseKey, keysOf]
  | cons p t ih =>
    obtain ⟨k, v⟩ := p
    by_cases h : k = s
    · subst h
      simp [CM.eraseKey, keysOf, List.erase_cons]
    · have hb : (k == s) = false := beq_eq_false_iff_ne.mpr h
      simp only [CM.eraseKey, if_neg h, keysOf, List.map_cons, List.erase_cons, hb,
        Bool.false_eq_true, if_false, List.cons.injEq]
      exact ⟨trivial, ih⟩

/-! # Claim theorems -/

/-- C1, amended: the PRS signature of a segmentation is the triple
(⌊#'<' / 2⌋, #'(', ⌊#'>' / 2⌋); when a delimiter count is odd the halved
component is silently floored, with no error surfaced. -/
theorem prs_floor_spec (segm : String) :
    2 * (get_PRS_signature segm).1 ≤ segm.data.count '<' ∧
    segm.data.count '<' < 2 * (get_PRS_signature segm).1 + 2 ∧
    (get_PRS_signature segm).2.1 = segm.data.count '(' ∧
    2 * (get_PRS_signature segm).2.2 ≤ segm.data.count '>' ∧
    segm.data.count '>' < 2 * (get_PRS_signature segm).2.2 + 2 := by
  refine ⟨?_, ?_, rfl, ?_, ?_⟩
  · show 2 * (segm.data.count '<' / 2) ≤ segm.data.count '<'
    omega
  · show segm.data.count '<' < 2 * (segm.data.count '<' / 2) + 2
    omega
  · show 2 * (segm.data.count '>' / 2) ≤ segm.data.count '>'
    omega
  · show segm.data.count '>' < 2 * (segm.data.count '>' / 2) + 2
    omega

/-- C1, counterexample: on a segmentation with an odd number of prefix
delimiters, `get_PRS_signature` returns a truncated integral triple instead
of surfacing a data-integrity error. -/
theorem prs_odd_truncated_cx :
    "<a".data.count '<' = 1 ∧ get_PRS_signature "<a" = (0, 0, 0) ∧
      2 * (get_PRS_signature "<a").1 ≠ "<a".data.count '<' := by
  decide

/-- C2: rows whose segmentation is the literal sentinel `"NULL"` are removed
by preprocessing, are skipped by the per-word composition pass, and morpheme
extraction on the sentinel itself raises. -/
theorem null_rows_excluded :
    (∀ (raws : List RawRow) (r : Row), r ∈ preprocess_db raws → r.segm ≠ "NULL") ∧
    (∀ (mv : String → Option MVar) (db : List Row),
      apply_morpho_vars_to_lex_db db mv =
        apply_morpho_vars_to_lex_db (db.filter (fun r => decide (r.segm ≠ "NULL"))) mv) ∧
    get_morphemes "NULL" = .error "NULL segmentation!" := by
  refine ⟨?_, ?_, rfl⟩
  · intro raws r hr
    simp only [preprocess_db, List.mem_map] at hr
    obtain ⟨q, hq, rfl⟩ := hr
    simpa using List.of_mem_filter hq
  · intro mv db
    unfold apply_morpho_vars_to_lex_db
    suffices haux : ∀ (l : List Row) (res : List (PRS × List Entry)),
        applyGo mv l res =
          applyGo mv (l.filter (fun r => decide (r.segm ≠ "NULL"))) res by
      exact haux db []
    intro l
    induction l with
    | nil => intro res; rfl
    | cons r t ih =>
      intro res
      by_cases h : r.segm = "NULL"
      · have hstep : applyStep mv res r = .ok res := by
          unfold applyStep
          rw [if_pos h]
        have hfil : (r :: t).filter (fun r => decide (r.segm ≠ "NULL")) =
            t.filter (fun r => decide (r.segm ≠ "NULL")) := by
          simp [List.filter_cons, h]
        rw [hfil, ← ih res]
        simp only [applyGo, hstep]
      · have hfil : (r :: t).filter (fun r => decide (r.segm ≠ "NULL")) =
            r :: t.filter (fun r => decide (r.segm ≠ "NULL")) := by
          simp [List.filter_cons, h]
        rw [hfil]
        simp only [applyGo]
        cases hs : applyStep mv res r with
        | ok res' => exact ih res'
        | error e => rfl

/-- C2 witness: a concrete row surviving preprocessing has a non-`"NULL"`
segmentation. -/
theorem null_rows_excluded_witness :
    (⟨"1", "a", "NN", 1, 0, "(a)"⟩ : Row).segm ≠ "NULL" :=
  null_rows_excluded.1 [⟨"1", "a", "NN", 1, some 0, "(a)"⟩] _ (List.Mem.head _)

/-- C6: the family frequency rank is 1 plus the number of family members
strictly more frequent than the word; a member tied with the word does not
change the rank; a singleton family holding the word's own entry gives
rank 1 and PFMF 0. -/
theorem ffr_spec (wf : ℚ) (family : List (String × ℚ)) (s k : String) :
    get_family_frequency_rank wf family =
      1 + family.countP (fun p => decide (wf < p.2)) ∧
    get_family_frequency_rank wf ((s, wf) :: family) =
      get_family_frequency_rank wf family ∧
    get_family_frequency_rank wf [(k, wf)] = 1 ∧
    get_percentage_family_more_frequent wf [(k, wf)] = 0 := by
  refine ⟨?_, ?_, ?_, ?_⟩
  · unfold get_family_frequency_rank
    rw [← List.countP_eq_length_filter, List.countP_map]
    exact Nat.add_comm _ 1
  · unfold get_family_frequency_rank
    simp [lt_irrefl]
  · unfold get_family_frequency_rank
    simp [lt_irrefl]
  · rfl

/-- C10, counterexample: the count-file `get_relative_fam_freq` mutates the
caller's family dict (it pops the word's own entry), so the family is not
left unchanged. -/
theorem relfamfreq_mutates_cx :
    (CM.get_relative_fam_freq "(a)" [] "(a)" (1, 1)
        [("(a)", (1, 1)), ("(b)", (2, 2))]).2 ≠
      [("(a)", ((1 : ℚ), (1 : ℚ))), ("(b)", ((2 : ℚ), (2 : ℚ)))] := by
  intro h
  have hlen := congrArg List.length h
  simp [CM.get_relative_fam_freq, CM.eraseKey] at hlen

/-- C10, amended: the build-file FFR and PFMF computations are pure reads,
but the count-file `get_relative_fam_freq` removes the word's own entry:
for a singleton family the family is returned unchanged, and otherwise the
post-state's key list is the original key list with `segm` erased. -/
theorem relfamfreq_post_state (morpheme : String) (db : List CM.Row)
    (segm : String) (wf : ℚ × ℚ) (fam : List (String × ℚ × ℚ)) :
    (fam.length = 1 →
      (CM.get_relative_fam_freq morpheme db segm wf fam).2 = fam) ∧
    (fam.length ≠ 1 →
      keysOf (CM.get_relative_fam_freq morpheme db segm wf fam).2 =
        (keysOf fam).erase segm) := by
  constructor
  · intro h
    unfold CM.get_relative_fam_freq
    rw [if_pos h]
  · intro h
    unfold CM.get_relative_fam_freq
    rw [if_neg h]
    exact keysOf_eraseKey fam segm

/-- C10 witness: on a two-member family the post-state of
`get_relative_fam_freq` has lost the word's own key. -/
theorem relfamfreq_post_state_witness :
    keysOf (CM.get_relative_fam_freq "(a)" [] "(a)" (1, 1)
      [("(a)", (1, 1)), ("(b)", (2, 2))]).2 = ["(b)"] := by
  have h := (relfamfreq_post_state "(a)" [] "(a)" (1, 1)
    [("(a)", (1, 1)), ("(b)", (2, 2))]).2 (by decide)
  rw [h]
  rfl

/-- C4, amended: in build_morpholex_db, the family of a morpheme maps each
distinct segmentation `s` containing the morpheme to the summed HAL
frequency of all rows carrying exactly that segmentation, and the family's
keys are distinct (rows sharing a segmentation are one member); the
count-file variant instead keeps only the last matching row's frequencies
(see the counterexample). -/
theorem family_sums_by_segmentation (m : String) (db : List Row) (s : String)
    (h : substr m s = true) :
    (lookupOpt (get_family m db) s =
      if db.filter (fun r => decide (r.segm = s)) = [] then none
      else some (((db.filter (fun r => decide (r.segm = s))).map Row.hal).sum)) ∧
    (keysOf (get_family m db)).Nodup := by
  have hcong : matchRows m s db = db.filter (fun r => decide (r.segm = s)) := by
    unfold matchRows
    apply List.filter_congr
    intro r _
    by_cases hseg : r.segm = s
    · rw [hseg, h]
      simp
    · simp [hseg]
  refine ⟨?_, keysOf_get_family_nodup m db⟩
  rw [lookup_get_family, hcong]

/-- C4 witness: two rows sharing the segmentation `"(a)"` with HAL
frequencies 1 and 2 yield a single family member with merged frequency 3. -/
theorem family_sums_by_segmentation_witness :
    lookupOpt (get_family "(a)"
        [⟨"1", "friend", "NN", 1, 0, "(a)"⟩, ⟨"2", "friends", "NN", 2, 0, "(a)"⟩])
      "(a)" = some 3 := by
  have h := (family_sums_by_segmentation "(a)"
    [⟨"1", "friend", "NN", 1, 0, "(a)"⟩, ⟨"2", "friends", "NN", 2, 0, "(a)"⟩]
    "(a)" (by decide)).1
  rw [h]
  rw [show ([⟨"1", "friend", "NN", 1, 0, "(a)"⟩,
      ⟨"2", "friends", "NN", 2, 0, "(a)"⟩] : List Row).filter
      (fun r => decide (r.segm = "(a)")) =
    [⟨"1", "friend", "NN", 1, 0, "(a)"⟩, ⟨"2", "friends", "NN", 2, 0, "(a)"⟩] from rfl]
  rw [if_neg (by simp)]
  norm_num

/-- C4 counterexample: the count-file `get_family` overwrites instead of
summing: two rows with identical segmentation and HAL frequencies 1 and 2
leave family value 2, while the merged total over rows sharing the
segmentation is 3. -/
theorem cm_family_overwrites_cx :
    lookupOpt (CM.get_family "(a)"
        [⟨"friend", some 1, 1, "(a)", "NN"⟩, ⟨"friends", some 2, 2, "(a)", "NN"⟩])
      "(a)" = some (2, 2) ∧
    ((([⟨"friend", some 1, 1, "(a)", "NN"⟩,
        ⟨"friends", some 2, 2, "(a)", "NN"⟩] : List CM.Row).filter
        (fun r => decide (r.segm = "(a)"))).map CM.Row.hal).sum = 3 ∧
    ((2 : ℚ), (2 : ℚ)) ≠ ((3 : ℚ), (3 : ℚ)) := by
  refine ⟨by decide, ?_, by norm_num⟩
  rw [show ([⟨"friend", some 1, 1, "(a)", "NN"⟩,
      ⟨"friends", some 2, 2, "(a)", "NN"⟩] : List CM.Row).filter
      (fun r => decide (r.segm = "(a)")) =
    [⟨"friend", some 1, 1, "(a)", "NN"⟩, ⟨"friends", some 2, 2, "(a)", "NN"⟩] from rfl]
  norm_num

/-- C5: PFMF is 0 for a singleton family, and otherwise equals the count of
family members other than the word's own entry with strictly higher
frequency, divided by family size minus one, times 100 (the word's own
entry, present with the word's frequency, can never exceed itself, so
excluding it does not change the count). -/
theorem pfmf_spec (wf : ℚ) (family : List (String × ℚ)) (k : String)
    (hnd : (keysOf family).Nodup) (hmem : (k, wf) ∈ family) :
    get_percentage_family_more_frequent wf family =
      if family.length = 1 then 0
      else (((family.filter
          (fun p => decide (p.1 ≠ k) && decide (wf < p.2))).length : ℚ) /
        ((family.length : ℚ) - 1)) * 100 := by
  unfold get_percentage_family_more_frequent
  rw [count_gt_excl_self family k wf hnd hmem]

/-- C5 witness: in the family of `"a"` (frequency 5) with one other member
of frequency 7, PFMF evaluates to 100. -/
theorem pfmf_spec_witness :
    get_percentage_family_more_frequent 5 [("a", 5), ("b", 7)] = 100 := by
  rw [pfmf_spec 5 [("a", 5), ("b", 7)] "a" (by decide) (List.mem_cons_self _ _)]
  have h5 : ¬((5 : ℚ) < 5) := by norm_num
  have h7 : (5 : ℚ) < 7 := by norm_num
  rw [show ([("a", (5 : ℚ)), ("b", 7)].filter
      (fun p => decide (p.1 ≠ "a") && decide ((5 : ℚ) < p.2))) = [("b", 7)] by
    simp [List.filter_cons, h5, h7]]
  norm_num

/-- C3: with the hapax set built from the same database and non-negative HAL
frequencies, a morpheme of total frequency 0 gets P = 0 and P-star = 0
through the zero guard, and whenever the unguarded division branch is taken
both denominators (the total frequency and the hapax-set size) are
nonzero. -/
theorem p_measures_zero_guard (db : List Row) (m : String)
    (hnn : ∀ r ∈ db, 0 ≤ r.hal) :
    (total_morpheme_freq m db = 0 →
      (mvarOf m db (get_hapax_set db)).hal_p = 0 ∧
      (mvarOf m db (get_hapax_set db)).hal_pstar = 0) ∧
    (total_morpheme_freq m (get_hapax_set db) ≠ 0 →
      total_morpheme_freq m db ≠ 0 ∧ ((get_hapax_set db).length : ℚ) ≠ 0) := by
  have hhap_nonneg : ∀ r ∈ get_hapax_set db, 0 ≤ r.hal :=
    fun r hr => hnn r ((hapax_sublist db).subset hr)
  have hle := totalFreq_hapax_le m db hnn
  have hge := totalFreq_nonneg m (get_hapax_set db) hhap_nonneg
  constructor
  · intro h0
    have hhf : total_morpheme_freq m (get_hapax_set db) = 0 :=
      le_antisymm (h0 ▸ hle) hge
    constructor <;> simp [mvarOf, hhf]
  · intro hne
    constructor
    · intro h0
      exact hne (le_antisymm (h0 ▸ hle) hge)
    · intro hlen
      have hlen' : (get_hapax_set db).length = 0 := by exact_mod_cast hlen
      have hnil : get_hapax_set db = [] := List.length_eq_zero.mp hlen'
      apply hne
      rw [hnil]
      rfl

/-- C3 witness: a database whose single row has HAL frequency 0 gives the
morpheme `"(a)"` total frequency 0 and P = P-star = 0. -/
theorem p_measures_zero_guard_witness :
    (mvarOf "(a)" [⟨"1", "a", "NN", 0, 0, "(a)"⟩]
      (get_hapax_set [⟨"1", "a", "NN", 0, 0, "(a)"⟩])).hal_p = 0 ∧
    (mvarOf "(a)" [⟨"1", "a", "NN", 0, 0, "(a)"⟩]
      (get_hapax_set [⟨"1", "a", "NN", 0, 0, "(a)"⟩])).hal_pstar = 0 := by
  apply (p_measures_zero_guard [⟨"1", "a", "NN", 0, 0, "(a)"⟩] "(a)"
    (by intro r hr; simp at hr; subst hr; norm_num)).1
  rw [totalFreq_eq_sum,
    show ([(⟨"1", "a", "NN", 0, 0, "(a)"⟩ : Row)].filter
      (fun r => substr "(a)" r.segm)) = [⟨"1", "a", "NN", 0, 0, "(a)"⟩] from rfl]
  norm_num

/-- C7, amended: for a morpheme occurring in at least one row, with
non-negative HAL frequencies and the hapax set drawn from the same database,
the family size is at least 1, P lies in [0, 1] and P-star is non-negative;
P-star can exceed 1 (see the counterexample), so the claimed upper bound of
1 for P-star does not hold. -/
theorem family_vars_bounds (db : List Row) (m : String)
    (hnn : ∀ r ∈ db, 0 ≤ r.hal) (r₀ : Row) (hr₀ : r₀ ∈ db)
    (hocc : substr m r₀.segm = true) :
    1 ≤ (mvarOf m db (get_hapax_set db)).family_size ∧
    0 ≤ (mvarOf m db (get_hapax_set db)).hal_p ∧
    (mvarOf m db (get_hapax_set db)).hal_p ≤ 1 ∧
    0 ≤ (mvarOf m db (get_hapax_set db)).hal_pstar := by
  have hkey : r₀.segm ∈ keysOf (get_family m db) := by
    rw [mem_keysOf_get_family]
    intro hnil
    have hin : r₀ ∈ matchRows m r₀.segm db := by
      unfold matchRows
      rw [List.mem_filter]
      exact ⟨hr₀, by simp [hocc]⟩
    rw [hnil] at hin
    cases hin
  have hfs : 1 ≤ (get_family m db).length := by
    have hne : keysOf (get_family m db) ≠ [] := List.ne_nil_of_mem hkey
    have hlm : (keysOf (get_family m db)).length = (get_family m db).length :=
      List.length_map _ _
    have hpos := List.length_pos.mpr hne
    omega
  have hhap_nonneg : ∀ r ∈ get_hapax_set db, 0 ≤ r.hal :=
    fun r hr => hnn r ((hapax_sublist db).subset hr)
  have hge := totalFreq_nonneg m (get_hapax_set db) hhap_nonneg
  have hle := totalFreq_hapax_le m db hnn
  by_cases h0 : total_morpheme_freq m (get_hapax_set db) = 0
  · exact ⟨hfs, by simp [mvarOf, h0], by simp [mvarOf, h0], by simp [mvarOf, h0]⟩
  · have hpos : 0 < total_morpheme_freq m (get_hapax_set db) :=
      lt_of_le_of_ne hge (Ne.symm h0)
    have hfpos : 0 < total_morpheme_freq m db := lt_of_lt_of_le hpos hle
    refine ⟨hfs, ?_, ?_, ?_⟩
    · simp only [mvarOf, if_neg h0]
      exact div_nonneg hpos.le hfpos.le
    · simp only [mvarOf, if_neg h0]
      exact (div_le_one hfpos).mpr hle
    · simp only [mvarOf, if_neg h0]
      exact div_nonneg hpos.le (Nat.cast_nonneg _)

/-- C7 witness: on a one-row database containing the morpheme with HAL
frequency 1, family size is 1 and the P measures respect the bounds. -/
theorem family_vars_bounds_witness :
    1 ≤ (mvarOf "(a)" [⟨"1", "a", "NN", 1, 0, "(a)"⟩]
      (get_hapax_set [⟨"1", "a", "NN", 1, 0, "(a)"⟩])).family_size ∧
    0 ≤ (mvarOf "(a)" [⟨"1", "a", "NN", 1, 0, "(a)"⟩]
      (get_hapax_set [⟨"1", "a", "NN", 1, 0, "(a)"⟩])).hal_p ∧
    (mvarOf "(a)" [⟨"1", "a", "NN", 1, 0, "(a)"⟩]
      (get_hapax_set [⟨"1", "a", "NN", 1, 0, "(a)"⟩])).hal_p ≤ 1 ∧
    0 ≤ (mvarOf "(a)" [⟨"1", "a", "NN", 1, 0, "(a)"⟩]
      (get_hapax_set [⟨"1", "a", "NN", 1, 0, "(a)"⟩])).hal_pstar :=
  family_vars_bounds [⟨"1", "a", "NN", 1, 0, "(a)"⟩] "(a)"
    (by intro r hr; simp at hr; subst hr; norm_num)
    ⟨"1", "a", "NN", 1, 0, "(a)"⟩ (List.Mem.head _) (by decide)

/-- C7 counterexample: a row with HAL frequency 2 that enters the hapax set
through the subtitle threshold makes P-star = 2 > 1, violating the claimed
[0, 1] bound while the claim's hypotheses hold. -/
theorem pstar_exceeds_one_cx :
    (∀ r ∈ [(⟨"1", "a", "NN", 2, 1/100, "(a)"⟩ : Row)], 0 ≤ r.hal) ∧
    substr "(a)" (⟨"1", "a", "NN", 2, 1/100, "(a)"⟩ : Row).segm = true ∧
    1 < (mvarOf "(a)" [⟨"1", "a", "NN", 2, 1/100, "(a)"⟩]
      (get_hapax_set [⟨"1", "a", "NN", 2, 1/100, "(a)"⟩])).hal_pstar := by
  have hhap : get_hapax_set [(⟨"1", "a", "NN", 2, 1/100, "(a)"⟩ : Row)] =
      [⟨"1", "a", "NN", 2, 1/100, "(a)"⟩] := by
    unfold get_hapax_set
    have hp : (decide ((⟨"1", "a", "NN", 2, 1/100, "(a)"⟩ : Row).hal ≤
          HAPAX_HAL_FREQ_THRESHOLD) ||
        decide ((⟨"1", "a", "NN", 2, 1/100, "(a)"⟩ : Row).sbtl ≤
          HAPAX_SBTL_FREQ_THRESHOLD)) = true := by
      simp only [Bool.or_eq_true, decide_eq_true_eq]
      right
      show (1 : ℚ)/100 ≤ 2/100
      norm_num
    simp only [List.filter_cons, hp]
    simp
  have htf : total_morpheme_freq "(a)" [(⟨"1", "a", "NN", 2, 1/100, "(a)"⟩ : Row)] = 2 := by
    rw [totalFreq_eq_sum,
      show ([(⟨"1", "a", "NN", 2, 1/100, "(a)"⟩ : Row)].filter
        (fun r => substr "(a)" r.segm)) = [⟨"1", "a", "NN", 2, 1/100, "(a)"⟩] from rfl]
    norm_num
  refine ⟨by intro r hr; simp at hr; subst hr; norm_num, by decide, ?_⟩
  simp only [mvarOf, hhap, htf]
  rw [if_neg (by norm_num)]
  norm_num

/-- C8: per-morpheme aggregation is order-independent: a permutation of the
database rows gives the same total morpheme frequency, the same family
mapping (pointwise on keys) and the same family size. -/
theorem aggregation_perm_invariant (m : String) (db₁ db₂ : List Row)
    (h : db₁.Perm db₂) :
    total_morpheme_freq m db₁ = total_morpheme_freq m db₂ ∧
    (∀ s, lookupOpt (get_family m db₁) s = lookupOpt (get_family m db₂) s) ∧
    (get_family m db₁).length = (get_family m db₂).length := by
  have hm : ∀ s, (matchRows m s db₁).Perm (matchRows m s db₂) :=
    fun s => h.filter _
  refine ⟨?_, ?_, ?_⟩
  · rw [totalFreq_eq_sum, totalFreq_eq_sum]
    exact ((h.filter _).map Row.hal).sum_eq
  · intro s
    rw [lookup_get_family, lookup_get_family]
    have hlen := (hm s).length_eq
    by_cases hnil : matchRows m s db₁ = []
    · have hnil₂ : matchRows m s db₂ = [] := by
        rw [hnil] at hlen
        exact List.length_eq_zero.mp hlen.symm
      rw [if_pos hnil, if_pos hnil₂]
    · have hnil₂ : matchRows m s db₂ ≠ [] := by
        intro hc
        rw [hc] at hlen
        exact hnil (List.length_eq_zero.mp hlen)
      rw [if_neg hnil, if_neg hnil₂]
      exact congrArg some ((hm s).map Row.hal).sum_eq
  · have hnd₁ := keysOf_get_family_nodup m db₁
    have hnd₂ := keysOf_get_family_nodup m db₂
    have hmem : ∀ s, s ∈ keysOf (get_family m db₁) ↔
        s ∈ keysOf (get_family m db₂) := by
      intro s
      rw [mem_keysOf_get_family, mem_keysOf_get_family]
      have hlen := (hm s).length_eq
      constructor
      · intro hne hnil
        rw [hnil] at hlen
        exact hne (List.length_eq_zero.mp hlen)
      · intro hne hnil
        rw [hnil] at hlen
        exact hne (List.length_eq_zero.mp hlen.symm)
    have hfin : (keysOf (get_family m db₁)).toFinset =
        (keysOf (get_family m db₂)).toFinset := by
      ext a
      simp only [List.mem_toFinset]
      exact hmem a
    have h1 := List.toFinset_card_of_nodup hnd₁
    have h2 := List.toFinset_card_of_nodup hnd₂
    have hkl : (keysOf (get_family m db₁)).length =
        (keysOf (get_family m db₂)).length := by
      rw [← h1, ← h2, hfin]
    simpa [keysOf] using hkl

/-- C8 witness: swapping the two rows of a concrete database leaves the
aggregation results of `"(a)"` unchanged. -/
theorem aggregation_perm_invariant_witness :
    total_morpheme_freq "(a)"
        [⟨"1", "a", "NN", 1, 0, "(a)"⟩, ⟨"2", "ab", "NN", 2, 0, "(a)>s>"⟩] =
      total_morpheme_freq "(a)"
        [⟨"2", "ab", "NN", 2, 0, "(a)>s>"⟩, ⟨"1", "a", "NN", 1, 0, "(a)"⟩] ∧
    (∀ s, lookupOpt (get_family "(a)"
        [⟨"1", "a", "NN", 1, 0, "(a)"⟩, ⟨"2", "ab", "NN", 2, 0, "(a)>s>"⟩]) s =
      lookupOpt (get_family "(a)"
        [⟨"2", "ab", "NN", 2, 0, "(a)>s>"⟩, ⟨"1", "a", "NN", 1, 0, "(a)"⟩]) s) ∧
    (get_family "(a)"
        [⟨"1", "a", "NN", 1, 0, "(a)"⟩, ⟨"2", "ab", "NN", 2, 0, "(a)>s>"⟩]).length =
      (get_family "(a)"
        [⟨"2", "ab", "NN", 2, 0, "(a)>s>"⟩, ⟨"1", "a", "NN", 1, 0, "(a)"⟩]).length :=
  aggregation_perm_invariant "(a)"
    [⟨"1", "a", "NN", 1, 0, "(a)"⟩, ⟨"2", "ab", "NN", 2, 0, "(a)>s>"⟩]
    [⟨"2", "ab", "NN", 2, 0, "(a)>s>"⟩, ⟨"1", "a", "NN", 1, 0, "(a)"⟩]
    (List.Perm.swap _ _ _)

/-- C9: on a canonical segmentation (a concatenation of well-formed prefix,
root and suffix tokens), morpheme extraction succeeds and returns exactly
one token per morpheme, so the token count equals the sum of the PRS
signature's components. -/
theorem morpheme_count_eq_prs_sum (ts : List Tok) (h : GoodToks ts) :
    get_morphemes (String.mk (flat ts)) = .ok ((ts.map tokChars).map String.mk) ∧
    ((ts.map tokChars).map String.mk).length =
      (get_PRS_signature (String.mk (flat ts))).1 +
      (get_PRS_signature (String.mk (flat ts))).2.1 +
      (get_PRS_signature (String.mk (flat ts))).2.2 := by
  obtain ⟨c1, c2, c3⟩ := count_flat ts h
  constructor
  · unfold get_morphemes
    rw [if_neg (flat_ne_null ts)]
    rw [show (String.mk (flat ts)).data = flat ts from rfl, findMorph_flat ts h]
  · show _ = (flat ts).count '<' / 2 + (flat ts).count '(' + (flat ts).count '>' / 2
    rw [c1, c2, c3]
    simp only [List.length_map]
    have hl := length_eq_counts ts
    omega

/-- C9 witness: the canonical segmentation of `"<re<(vis)>it>"` extracts 3
morphemes, matching its PRS signature (1, 1, 1). -/
theorem morpheme_count_eq_prs_sum_witness :
    get_morphemes (String.mk (flat [Tok.pref ['r', 'e'], Tok.root ['v', 'i', 's'],
        Tok.suff ['i', 't']])) =
      .ok (([Tok.pref ['r', 'e'], Tok.root ['v', 'i', 's'],
        Tok.suff ['i', 't']].map tokChars).map String.mk) ∧
    (([Tok.pref ['r', 'e'], Tok.root ['v', 'i', 's'],
        Tok.suff ['i', 't']].map tokChars).map String.mk).length =
      (get_PRS_signature (String.mk (flat [Tok.pref ['r', 'e'],
        Tok.root ['v', 'i', 's'], Tok.suff ['i', 't']]))).1 +
      (get_PRS_signature (String.mk (flat [Tok.pref ['r', 'e'],
        Tok.root ['v', 'i', 's'], Tok.suff ['i', 't']]))).2.1 +
      (get_PRS_signature (String.mk (flat [Tok.pref ['r', 'e'],
        Tok.root ['v', 'i', 's'], Tok.suff ['i', 't']]))).2.2 :=
  morpheme_count_eq_prs_sum
    [Tok.pref ['r', 'e'], Tok.root ['v', 'i', 's'], Tok.suff ['i', 't']]
    (by decide)

end MorphoLex
